import Mathlib

/-!
Shallow embedding of the moon7-bits bitfield library (TypeScript).

JavaScript numbers that hold integral values are modelled as `Int`.
The bitwise operators of JavaScript coerce their operands with
`ToInt32` / `ToUint32` (a reduction modulo `2^32`, reading the result as a
signed, respectively unsigned, 32-bit value) and return a signed 32-bit
result, except for `>>>` which returns an unsigned one.  The helpers
`toUint32`, `int32OfBits` and `js*` below implement exactly those
semantics; the library functions are then literal transcriptions of
`src/type.ts`, `src/mask.ts`, `src/bits.ts`, `src/util.ts`, `src/named.ts`.
-/

namespace Moon7Bits

/-- JavaScript ToUint32: the operand reduced modulo `2^32`, read as an unsigned
bit pattern.  For integral doubles this is exactly mathematical mod. -/
def toUint32 (n : Int) : Nat := (n % (2 ^ 32 : Int)).toNat

/-- Reads a 32-bit pattern as a signed 32-bit integer (two's complement),
the value produced by JavaScript's `ToInt32`-based operators. -/
def int32OfBits (p : Nat) : Int := if p < 2 ^ 31 then (p : Int) else (p : Int) - 2 ^ 32

/-- JavaScript `a & b`. -/
def jsAnd (a b : Int) : Int := int32OfBits (toUint32 a &&& toUint32 b)

/-- JavaScript `a | b`. -/
def jsOr (a b : Int) : Int := int32OfBits (toUint32 a ||| toUint32 b)

/-- JavaScript `a ^ b`. -/
def jsXor (a b : Int) : Int := int32OfBits (toUint32 a ^^^ toUint32 b)

/-- JavaScript `~a`: bitwise complement of the 32-bit pattern of `a`. -/
def jsNot (a : Int) : Int := int32OfBits (toUint32 a ^^^ (2 ^ 32 - 1))

/-- JavaScript `a << b`: shift count is `ToUint32(b) & 31`, result signed. -/
def jsShl (a b : Int) : Int :=
  int32OfBits ((toUint32 a <<< (toUint32 b &&& 31)) % 2 ^ 32)

/-- JavaScript `a >>> b`: shift count is `ToUint32(b) & 31`, result unsigned. -/
def jsShrU (a b : Int) : Int := ((toUint32 a >>> (toUint32 b &&& 31) : Nat) : Int)

/-- From src/type.ts: `export const ALL: BitField = ~0 >>> 0;` -/
def ALL : Int := jsShrU (jsNot 0) 0

/-- From src/type.ts: `export const NONE: BitField = 0;` -/
def NONE : Int := 0

/-- From src/mask.ts: `bitMask(i) = (1 << i) >>> 0`. -/
def bitMask (i : Int) : Int := jsShrU (jsShl 1 i) 0

/-- From src/mask.ts: `checkMask(bits, mask) = (bits & mask) !== 0`. -/
def checkMask (bits mask : Int) : Bool := jsAnd bits mask != 0

/-- From src/mask.ts: `applyMask(bits, mask) = (bits | mask) >>> 0`. -/
def applyMask (bits mask : Int) : Int := jsShrU (jsOr bits mask) 0

/-- From src/mask.ts: `clearMask(bits, mask) = bits & ~mask` (note: no `>>> 0`). -/
def clearMask (bits mask : Int) : Int := jsAnd bits (jsNot mask)

/-- From src/mask.ts: `toggleMask(bits, mask) = (bits ^ mask) >>> 0`. -/
def toggleMask (bits mask : Int) : Int := jsShrU (jsXor bits mask) 0

/-- From src/bits.ts: `getBit(bits, index) = checkMask(bits, bitMask(index))`. -/
def getBit (bits index : Int) : Bool := checkMask bits (bitMask index)

/-- From src/bits.ts: `setBitOn(bits, index) = applyMask(bits, bitMask(index))`. -/
def setBitOn (bits index : Int) : Int := applyMask bits (bitMask index)

/-- From src/bits.ts: `setBitOff(bits, index) = clearMask(bits, bitMask(index))`. -/
def setBitOff (bits index : Int) : Int := clearMask bits (bitMask index)

/-- From src/bits.ts: `setBit` dispatches on the boolean `value`. -/
def setBit (bits index : Int) (value : Bool) : Int :=
  if value then setBitOn bits index else setBitOff bits index

/-- From src/bits.ts: `toggleBit(bits, index) = toggleMask(bits, bitMask(index))`. -/
def toggleBit (bits index : Int) : Int := toggleMask bits (bitMask index)

/-- The `while (value) { count += value & 1; value >>>= 1; }` loop of
`countBits` in `src/util.ts`.  After the first `value >>>= 1` the value is
a nonnegative 32-bit pattern, so the loop state is a `Nat`; on such a
state `value & 1` is `value &&& 1` and `value >>>= 1` is `value >>> 1`. -/
def countBitsLoop (value count : Nat) : Nat :=
  if h : value = 0 then count else countBitsLoop (value >>> 1) (count + (value &&& 1))
termination_by value
decreasing_by
  rw [Nat.shiftRight_succ, Nat.shiftRight_zero]
  exact Nat.div_lt_self (Nat.pos_of_ne_zero h) (by omega)

/-- From src/util.ts, `countBits`: the guard of the first loop iteration tests
the raw input, its body computes `bits & 1` and `bits >>> 1` (coercing
through the 32-bit pattern); the remaining iterations are `countBitsLoop`. -/
def countBits (bits : Int) : Nat :=
  if bits = 0 then 0 else countBitsLoop (toUint32 (jsShrU bits 1)) (jsAnd bits 1).toNat

/-- From src/util.ts: `isSingleBit(bits) = bits !== 0 && (bits & (bits - 1)) === 0`. -/
def isSingleBit (bits : Int) : Bool := bits != 0 && jsAnd bits (bits - 1) == 0

/-- JavaScript `String.prototype.padStart(len, c)` acting on the character list of a string:
prepends copies of `c` until the length is `len`; never truncates. -/
def padStart (s : List Char) (len : Nat) (c : Char) : List Char :=
  List.replicate (len - s.length) c ++ s

/-- From src/util.ts: `toBinaryString(bits, length) = bits.toString(2).padStart(length, "0")`.
`Number.prototype.toString(2)` on a nonnegative integer is `Nat.toDigits 2`. -/
def toBinaryString (bits : Nat) (length : Nat) : String :=
  ⟨padStart (Nat.toDigits 2 bits) length '0'⟩

/-- A property value of the named-collection objects of `src/named.ts`:
either a stored bit position (a JavaScript number) or the `mask` accessor
function itself, which the assignment `result.mask = ...` stores under the
key "mask" — JavaScript objects keep data and methods in one key
namespace, so this write overwrites any data entry of that name. -/
inductive JSProp where
  | num (v : Int)
  | accessor
deriving DecidableEq

/-- Property lookup on a JavaScript object built by writing the given
(key, value) entries in order: a later write to the same key overwrites an
earlier one. -/
def objGet {α : Type} (entries : List (String × α)) (name : String) : Option α :=
  entries.foldl (fun acc e => if e.1 = name then some e.2 else acc) none

/-- The shift count produced inside `bitMask(result[name])` by
`1 << result[name]`: a stored number is used as is, while both the
accessor function and an absent property (`undefined`) convert to NaN,
whose `ToUint32` is 0. -/
def maskShift : Option JSProp → Int
  | some (JSProp.num v) => v
  | some JSProp.accessor => 0
  | none => 0

/-- A call `result.mask(name)` of the accessor installed by either
builder: it evaluates `bitMask(result[name])`, looking `name` up in the
object's one key namespace, which also holds the accessor itself. -/
def maskCall (obj : List (String × JSProp)) (name : String) : Int :=
  bitMask (maskShift (objGet obj name))

/-- From src/named.ts, `defineBitFlags`: `{ ...definition }` writes the
definition's entries in order, then `result.mask = ...` writes the
accessor under the key "mask", overwriting any data entry of that name. -/
def defineBitFlags (definition : List (String × Int)) : List (String × JSProp) :=
  definition.map (fun e => (e.1, JSProp.num e.2)) ++ [("mask", JSProp.accessor)]

/-- The entries written by `names.forEach((name, index) => result[name] = index)`. -/
def enumEntries (names : List String) : List (String × JSProp) :=
  names.enum.map fun p => (p.2, JSProp.num (p.1 : Int))

/-- From src/named.ts, `defineBitEnum`: the forEach writes each name with
its index in order, then `result.mask = ...` writes the accessor under the
key "mask", overwriting the entry of an argument literally named "mask". -/
def defineBitEnum (names : List String) : List (String × JSProp) :=
  enumEntries names ++ [("mask", JSProp.accessor)]

/-- The forEach entries generalized to an arbitrary first index. -/
def enumEntriesFrom (s : Nat) (names : List String) : List (String × JSProp) :=
  (List.enumFrom s names).map fun p => (p.2, JSProp.num (p.1 : Int))

/-- Fuel-bounded mirror of `countBitsLoop`, used to state that the loop
terminates within a fixed number of iterations. -/
def countBitsBounded : Nat → Nat → Nat → Nat
  | 0, _, count => count
  | fuel + 1, value, count =>
    if value = 0 then count else countBitsBounded fuel (value >>> 1) (count + (value &&& 1))

/-! ### Basic facts about the JavaScript coercions -/

theorem toUint32_lt (a : Int) : toUint32 a < 2 ^ 32 := by
  unfold toUint32
  omega

theorem toUint32_ofNat {n : Nat} (h : n < 2 ^ 32) : toUint32 (n : Int) = n := by
  unfold toUint32
  omega

theorem toUint32_inRange {a : Int} (h0 : 0 ≤ a) (h1 : a < 2 ^ 32) : (toUint32 a : Int) = a := by
  unfold toUint32
  omega

theorem toUint32_int32OfBits {p : Nat} (h : p < 2 ^ 32) : toUint32 (int32OfBits p) = p := by
  unfold toUint32 int32OfBits
  split <;> omega

theorem int32OfBits_eq_zero {p : Nat} (h : p < 2 ^ 32) : int32OfBits p = 0 ↔ p = 0 := by
  unfold int32OfBits
  split <;> omega

theorem int32OfBits_small {p : Nat} (h : p < 2 ^ 31) : int32OfBits p = (p : Int) := by
  unfold int32OfBits
  omega

theorem jsShrU_zero (a : Int) : jsShrU a 0 = (toUint32 a : Int) := by
  have h0 : toUint32 0 = 0 := by decide
  simp [jsShrU, h0]

theorem toUint32_jsXor (a b : Int) : toUint32 (jsXor a b) = toUint32 a ^^^ toUint32 b :=
  toUint32_int32OfBits (Nat.xor_lt_two_pow (toUint32_lt a) (toUint32_lt b))

theorem toUint32_jsOr (a b : Int) : toUint32 (jsOr a b) = toUint32 a ||| toUint32 b :=
  toUint32_int32OfBits (Nat.or_lt_two_pow (toUint32_lt a) (toUint32_lt b))

theorem toUint32_jsAnd (a b : Int) : toUint32 (jsAnd a b) = toUint32 a &&& toUint32 b :=
  toUint32_int32OfBits (Nat.lt_of_le_of_lt Nat.and_le_left (toUint32_lt a))

theorem toUint32_jsNot (a : Int) : toUint32 (jsNot a) = toUint32 a ^^^ (2 ^ 32 - 1) :=
  toUint32_int32OfBits (Nat.xor_lt_two_pow (toUint32_lt a) (by norm_num))

/-- For a bit index in range, `bitMask i` is the single-bit value `2 ^ i`. -/
theorem bitMask_pow {i : Nat} (h : i < 32) : bitMask (i : Int) = ((2 ^ i : Nat) : Int) := by
  have hiu : toUint32 (i : Int) = i := toUint32_ofNat (by omega)
  have h31 : i &&& 31 = i := by
    have := Nat.and_pow_two_sub_one_eq_mod i 5
    norm_num at this
    omega
  have hpow : 2 ^ i < 2 ^ 32 := by
    calc 2 ^ i ≤ 2 ^ 31 := Nat.pow_le_pow_right (by norm_num) (by omega)
    _ < 2 ^ 32 := by norm_num
  have h1 : toUint32 1 = 1 := by decide
  unfold bitMask jsShl
  rw [jsShrU_zero, h1, hiu, h31, Nat.shiftLeft_eq, Nat.one_mul,
    Nat.mod_eq_of_lt hpow, toUint32_int32OfBits hpow]

theorem toUint32_ALL : toUint32 ALL = 2 ^ 32 - 1 := by decide

theorem toggleMask_eq (a b : Int) :
    toggleMask a b = ((toUint32 a ^^^ toUint32 b : Nat) : Int) := by
  unfold toggleMask
  rw [jsShrU_zero, toUint32_jsXor]

/-! ### Claim C5: toggleMask is self-inverse -/

/-- C5: for every BitField value `bits` (an unsigned 32-bit value) and every
mask, `toggleMask (toggleMask bits mask) mask = bits`. -/
theorem toggleMask_selfInverse (bits mask : Int) (h0 : 0 ≤ bits) (h1 : bits < 2 ^ 32) :
    toggleMask (toggleMask bits mask) mask = bits := by
  have hx : toUint32 bits ^^^ toUint32 mask < 2 ^ 32 :=
    Nat.xor_lt_two_pow (toUint32_lt bits) (toUint32_lt mask)
  rw [toggleMask_eq, toggleMask_eq, toUint32_ofNat hx, Nat.xor_assoc, Nat.xor_self,
    Nat.xor_zero, toUint32_inRange h0 h1]

/-- Witness for C5 at a concrete input. -/
theorem toggleMask_selfInverse_w : toggleMask (toggleMask 5 6) 6 = 5 :=
  toggleMask_selfInverse 5 6 (by decide) (by decide)

/-! ### Claims C1 and C4: clearMask / setBitOff and the missing `>>> 0` -/

theorem toUint32_eq_toNat {a : Int} (h0 : 0 ≤ a) (h1 : a < 2 ^ 32) : toUint32 a = a.toNat := by
  unfold toUint32
  omega

theorem clearMask_eq (a b : Int) :
    clearMask a b = int32OfBits (toUint32 a &&& (toUint32 b ^^^ (2 ^ 32 - 1))) := by
  unfold clearMask jsAnd
  rw [toUint32_jsNot]

theorem toUint32_clearMask (a b : Int) :
    toUint32 (clearMask a b) = toUint32 a &&& (toUint32 b ^^^ (2 ^ 32 - 1)) := by
  rw [clearMask_eq]
  exact toUint32_int32OfBits (Nat.lt_of_le_of_lt Nat.and_le_left (toUint32_lt a))

theorem applyMask_eq (a b : Int) :
    applyMask a b = ((toUint32 a ||| toUint32 b : Nat) : Int) := by
  unfold applyMask
  rw [jsShrU_zero, toUint32_jsOr]

/-- C1 counterexample: the claim `clearMask(bits, NONE) = bits` fails at
`bits = 2 ^ 31 = 2147483648`, where the code returns the signed value
`-2147483648` because `clearMask` omits the `>>> 0` normalization. -/
theorem clearMask_claim_cex : ¬ clearMask 2147483648 NONE = 2147483648 := by decide

/-- C1 (amended): `clearMask bits ALL = NONE` for every `bits`; the 32-bit
pattern of the result is always that of `bits` with exactly the mask's bits
cleared; and `clearMask bits NONE = bits` holds whenever bit 31 of `bits`
is clear (`0 ≤ bits < 2 ^ 31`) — for `bits ≥ 2 ^ 31` the result is the
negative signed-32-bit reading of that pattern, not `bits` itself. -/
theorem clearMask_spec (bits mask : Int) :
    clearMask bits ALL = NONE ∧
    (0 ≤ bits → bits < 2 ^ 31 → clearMask bits NONE = bits) ∧
    ∀ i, (toUint32 (clearMask bits mask)).testBit i
        = ((toUint32 bits).testBit i && !(toUint32 mask).testBit i) := by
  refine ⟨?_, ?_, ?_⟩
  · have hA : jsNot ALL = 0 := by decide
    have h0 : toUint32 0 = 0 := by decide
    unfold clearMask
    rw [hA]
    unfold jsAnd
    rw [h0, Nat.and_zero]
    decide
  · intro hb0 hb31
    have hlt : bits < 2 ^ 32 := by omega
    have hN : toUint32 NONE = 0 := by decide
    rw [clearMask_eq, hN, Nat.zero_xor,
      Nat.and_pow_two_sub_one_of_lt_two_pow (toUint32_lt bits),
      toUint32_eq_toNat hb0 hlt, int32OfBits_small (by omega)]
    omega
  · intro i
    rw [toUint32_clearMask, Nat.testBit_and, Nat.testBit_xor, Nat.testBit_two_pow_sub_one]
    by_cases hi : i < 32
    · simp [hi]
    · have hb : (toUint32 bits).testBit i = false :=
        Nat.testBit_lt_two_pow
          (Nat.lt_of_lt_of_le (toUint32_lt bits) (Nat.pow_le_pow_right (by norm_num) (by omega)))
      simp [hi, hb]

/-- Witness for C1 (amended) at a concrete input. -/
theorem clearMask_spec_w : clearMask 5 ALL = NONE ∧ clearMask 5 NONE = 5 :=
  ⟨(clearMask_spec 5 4).1, (clearMask_spec 5 4).2.1 (by decide) (by decide)⟩

theorem lor_two_pow_of_testBit {n i : Nat} (h : n.testBit i = true) : n ||| 2 ^ i = n := by
  apply Nat.eq_of_testBit_eq
  intro j
  rw [Nat.testBit_or, Nat.testBit_two_pow]
  by_cases hj : i = j
  · subst hj
    simp [h]
  · simp [hj]

theorem and_compl_two_pow_of_testBit {n i : Nat} (hn : n < 2 ^ 32)
    (h : n.testBit i = false) : n &&& (2 ^ i ^^^ (2 ^ 32 - 1)) = n := by
  apply Nat.eq_of_testBit_eq
  intro j
  rw [Nat.testBit_and, Nat.testBit_xor, Nat.testBit_two_pow, Nat.testBit_two_pow_sub_one]
  by_cases hj : i = j
  · subst hj
    simp [h]
  · by_cases hj32 : j < 32
    · simp [hj, hj32]
    · have hb : n.testBit j = false :=
        Nat.testBit_lt_two_pow
          (Nat.lt_of_lt_of_le hn (Nat.pow_le_pow_right (by norm_num) (by omega)))
      simp [hj, hj32, hb]

/-- C4 counterexample: `setBitOff` on an already-clear bit is claimed to
return `bits`, but at `bits = 2 ^ 31` (bit 0 clear), `setBitOff` returns
`-2147483648`, the signed reading of the unchanged pattern. -/
theorem setBitOff_claim_cex : ¬ setBitOff 2147483648 0 = 2147483648 := by decide

/-- C4 (amended): for a BitField `bits` and an index `i < 32`: `setBitOn`
on an already-set bit returns `bits` itself; `setBitOff` on an
already-clear bit leaves the 32-bit pattern of `bits` unchanged, and
returns `bits` itself whenever bit 31 of `bits` is clear (`bits < 2 ^ 31`)
— for `bits ≥ 2 ^ 31` it returns the negative signed-32-bit reading of
that pattern instead, because `clearMask` omits `>>> 0`. -/
theorem setBit_idem_spec (bits : Int) (i : Nat) (h0 : 0 ≤ bits) (h1 : bits < 2 ^ 32)
    (hi : i < 32) :
    ((toUint32 bits).testBit i = true → setBitOn bits (i : Int) = bits) ∧
    ((toUint32 bits).testBit i = false →
      toUint32 (setBitOff bits (i : Int)) = toUint32 bits ∧
      (bits < 2 ^ 31 → setBitOff bits (i : Int) = bits)) := by
  have hpow : 2 ^ i < 2 ^ 32 := by
    calc 2 ^ i ≤ 2 ^ 31 := Nat.pow_le_pow_right (by norm_num) (by omega)
    _ < 2 ^ 32 := by norm_num
  have hmask : toUint32 (bitMask (i : Int)) = 2 ^ i := by
    rw [bitMask_pow hi, toUint32_ofNat hpow]
  constructor
  · intro hset
    unfold setBitOn
    rw [applyMask_eq, hmask, lor_two_pow_of_testBit hset, toUint32_inRange h0 h1]
  · intro hclear
    have hpat : toUint32 bits &&& (2 ^ i ^^^ (2 ^ 32 - 1)) = toUint32 bits :=
      and_compl_two_pow_of_testBit (toUint32_lt bits) hclear
    constructor
    · unfold setBitOff
      rw [toUint32_clearMask, hmask, hpat]
    · intro hb31
      unfold setBitOff
      rw [clearMask_eq, hmask, hpat, toUint32_eq_toNat h0 h1, int32OfBits_small (by omega)]
      omega

/-- Witness for C4 (amended) at concrete inputs: bit 0 of 5 is set, bit 1
of 5 is clear. -/
theorem setBit_idem_spec_w : setBitOn 5 0 = 5 ∧ setBitOff 5 1 = 5 :=
  ⟨(setBit_idem_spec 5 0 (by decide) (by decide) (by decide)).1 (by decide),
   ((setBit_idem_spec 5 1 (by decide) (by decide) (by decide)).2 (by decide)).2 (by decide)⟩

/-! ### The countBits loop (claims C6, C7, C10) -/

theorem shiftRight_one' (m : Nat) : m >>> 1 = m / 2 := by
  rw [Nat.shiftRight_succ, Nat.shiftRight_zero]

/-- One unfolding of the loop, with the bit operations rewritten to
arithmetic (`v &&& 1 = v % 2`, `v >>> 1 = v / 2`). -/
theorem countBitsLoop_eq (v c : Nat) :
    countBitsLoop v c = if v = 0 then c else countBitsLoop (v / 2) (c + v % 2) := by
  conv_lhs => rw [countBitsLoop]
  rw [Nat.and_one_is_mod, shiftRight_one']
  by_cases hv : v = 0 <;> simp [hv]

theorem countBitsLoop_acc (v : Nat) :
    ∀ c, countBitsLoop v c = c + countBitsLoop v 0 := by
  induction v using Nat.strong_induction_on with
  | _ v ih =>
    intro c
    rw [countBitsLoop_eq v c, countBitsLoop_eq v 0]
    by_cases hv : v = 0
    · simp [hv]
    · have hd : v / 2 < v := Nat.div_lt_self (Nat.pos_of_ne_zero hv) (by omega)
      simp only [hv, if_false]
      rw [ih (v / 2) hd (c + v % 2), ih (v / 2) hd (0 + v % 2)]
      omega

theorem countBitsLoop_step {v : Nat} (hv : v ≠ 0) :
    countBitsLoop v 0 = v % 2 + countBitsLoop (v / 2) 0 := by
  rw [countBitsLoop_eq]
  simp only [hv, if_false]
  rw [countBitsLoop_acc]
  omega

/-- The value `countBits bits` is the loop applied to the 32-bit pattern of `bits`. -/
theorem countBits_eq_loop (bits : Int) : countBits bits = countBitsLoop (toUint32 bits) 0 := by
  unfold countBits
  by_cases hb : bits = 0
  · rw [if_pos hb, hb, show toUint32 0 = 0 from by decide, countBitsLoop_eq]
    simp
  · rw [if_neg hb]
    have h1 : toUint32 (1 : Int) = 1 := by decide
    have hshr : jsShrU bits 1 = ((toUint32 bits >>> 1 : Nat) : Int) := by
      unfold jsShrU
      rw [h1, show (1 &&& 31 : Nat) = 1 from by decide]
    have hshrlt : toUint32 bits >>> 1 < 2 ^ 32 := by
      rw [shiftRight_one']
      exact Nat.lt_of_le_of_lt (Nat.div_le_self _ _) (toUint32_lt bits)
    have hand : jsAnd bits 1 = ((toUint32 bits % 2 : Nat) : Int) := by
      unfold jsAnd
      rw [h1, Nat.and_one_is_mod, int32OfBits_small (by omega)]
    rw [hshr, toUint32_ofNat hshrlt, hand, shiftRight_one']
    by_cases hu : toUint32 bits = 0
    · rw [hu]
      simp
    · rw [countBitsLoop_eq (toUint32 bits) 0]
      simp only [hu, if_false, Int.toNat_ofNat, Nat.zero_add]

theorem countBitsLoop_eq_zero : ∀ v : Nat, countBitsLoop v 0 = 0 ↔ v = 0 := by
  intro v
  induction v using Nat.strong_induction_on with
  | _ v ih =>
    by_cases hv : v = 0
    · subst hv
      rw [countBitsLoop_eq]
      simp
    · rw [countBitsLoop_step hv]
      have hd : v / 2 < v := Nat.div_lt_self (Nat.pos_of_ne_zero hv) (by omega)
      constructor
      · intro h
        have h2 : countBitsLoop (v / 2) 0 = 0 := by omega
        have := (ih (v / 2) hd).mp h2
        omega
      · intro h
        exact absurd h hv

theorem countBitsLoop_two_pow : ∀ i : Nat, countBitsLoop (2 ^ i) 0 = 1 := by
  intro i
  induction i with
  | zero =>
    rw [pow_zero, countBitsLoop_step (by omega)]
    rw [show (1 : Nat) / 2 = 0 from by omega, countBitsLoop_eq]
    simp
  | succ i ih =>
    have hp : 0 < 2 ^ i := Nat.two_pow_pos i
    have hs : 2 ^ (i + 1) = 2 * 2 ^ i := by rw [Nat.pow_succ]; omega
    rw [countBitsLoop_step (by omega), hs]
    rw [show 2 * 2 ^ i % 2 = 0 from by omega, show 2 * 2 ^ i / 2 = 2 ^ i from by omega, ih]

theorem countBitsLoop_eq_one : ∀ v : Nat, countBitsLoop v 0 = 1 ↔ ∃ i, v = 2 ^ i := by
  intro v
  induction v using Nat.strong_induction_on with
  | _ v ih =>
    constructor
    · intro h
      have hv : v ≠ 0 := by
        intro h0
        rw [h0, countBitsLoop_eq] at h
        simp at h
      rw [countBitsLoop_step hv] at h
      have hd : v / 2 < v := Nat.div_lt_self (Nat.pos_of_ne_zero hv) (by omega)
      by_cases hpar : v % 2 = 0
      · have h2 : countBitsLoop (v / 2) 0 = 1 := by omega
        obtain ⟨i, hi⟩ := (ih (v / 2) hd).mp h2
        exact ⟨i + 1, by rw [Nat.pow_succ]; omega⟩
      · have h2 : countBitsLoop (v / 2) 0 = 0 := by omega
        have hz : v / 2 = 0 := (countBitsLoop_eq_zero (v / 2)).mp h2
        exact ⟨0, by omega⟩
    · rintro ⟨i, rfl⟩
      exact countBitsLoop_two_pow i

/-! ### Powers of two and `bits & (bits - 1)` -/

theorem land_bit (x y : Bool) (a b : Nat) :
    (2 * a + x.toNat) &&& (2 * b + y.toNat) = 2 * (a &&& b) + (x && y).toNat := by
  apply Nat.eq_of_testBit_eq
  intro j
  have hdx : (2 * a + x.toNat) / 2 = a := by cases x <;> simp <;> omega
  have hdy : (2 * b + y.toNat) / 2 = b := by cases y <;> simp <;> omega
  have hdz : (2 * (a &&& b) + (x && y).toNat) / 2 = a &&& b := by
    cases x <;> cases y <;> simp <;> omega
  cases j with
  | zero =>
    rw [Nat.testBit_and, Nat.testBit_zero, Nat.testBit_zero, Nat.testBit_zero]
    cases x <;> cases y <;> simp [Nat.mul_add_mod]
  | succ j =>
    rw [Nat.testBit_and, Nat.testBit_succ, Nat.testBit_succ, Nat.testBit_succ,
      hdx, hdy, hdz, Nat.testBit_and]

theorem land_pred_two_pow (i : Nat) : 2 ^ i &&& (2 ^ i - 1) = 0 := by
  rw [Nat.and_pow_two_sub_one_eq_mod, Nat.mod_self]

theorem two_pow_of_land_pred : ∀ n : Nat, n ≠ 0 → n &&& (n - 1) = 0 → ∃ i, n = 2 ^ i := by
  intro n
  induction n using Nat.strong_induction_on with
  | _ n ih =>
    intro hn h
    rcases Nat.even_or_odd n with he | ho
    · obtain ⟨m, hm⟩ := he
      have hm0 : m ≠ 0 := by omega
      have h1 : n = 2 * m + Bool.toNat false := by simp; omega
      have h2 : n - 1 = 2 * (m - 1) + Bool.toNat true := by simp; omega
      rw [h2, h1, land_bit] at h
      simp at h
      obtain ⟨i, hi⟩ := ih m (by omega) hm0 (by omega)
      exact ⟨i + 1, by rw [Nat.pow_succ]; omega⟩
    · obtain ⟨m, hm⟩ := ho
      by_cases hm0 : m = 0
      · exact ⟨0, by omega⟩
      · exfalso
        have h1 : n = 2 * m + Bool.toNat true := by simp; omega
        have h2 : n - 1 = 2 * m + Bool.toNat false := by simp; omega
        rw [h2, h1, land_bit, Nat.and_self] at h
        simp at h
        omega

/-- The test `isSingleBit bits` holds exactly when the 32-bit pattern of `bits` is a
power of two. -/
theorem isSingleBit_iff_pow {bits : Int} (h0 : 0 ≤ bits) (h1 : bits < 2 ^ 32) :
    isSingleBit bits = true ↔ ∃ i, toUint32 bits = 2 ^ i := by
  unfold isSingleBit
  simp only [Bool.and_eq_true, bne_iff_ne, ne_eq, beq_iff_eq]
  by_cases hb : bits = 0
  · subst hb
    constructor
    · intro h
      exact absurd rfl h.1
    · rintro ⟨i, hi⟩
      rw [show toUint32 0 = 0 from by decide] at hi
      have := Nat.two_pow_pos i
      omega
  · have hn : toUint32 bits = bits.toNat := toUint32_eq_toNat h0 h1
    have hnz : toUint32 bits ≠ 0 := by
      rw [hn]
      omega
    have hpred : toUint32 (bits - 1) = toUint32 bits - 1 := by
      unfold toUint32
      omega
    have hand : jsAnd bits (bits - 1) = 0 ↔ toUint32 bits &&& (toUint32 bits - 1) = 0 := by
      unfold jsAnd
      rw [hpred]
      exact int32OfBits_eq_zero (Nat.lt_of_le_of_lt Nat.and_le_left (toUint32_lt bits))
    constructor
    · rintro ⟨-, h⟩
      exact two_pow_of_land_pred (toUint32 bits) hnz (hand.mp h)
    · rintro ⟨i, hi⟩
      refine ⟨hb, hand.mpr ?_⟩
      rw [hi]
      exact land_pred_two_pow i

/-! ### Claim C6: isSingleBit characterizes population count one -/

/-- C6: for every BitField value `bits`, `isSingleBit bits = true` iff
`countBits bits = 1`; in particular `isSingleBit NONE = false`. -/
theorem isSingleBit_spec (bits : Int) (h0 : 0 ≤ bits) (h1 : bits < 2 ^ 32) :
    (isSingleBit bits = true ↔ countBits bits = 1) ∧ isSingleBit NONE = false := by
  refine ⟨?_, by decide⟩
  rw [countBits_eq_loop, isSingleBit_iff_pow h0 h1, countBitsLoop_eq_one]

/-- Witness for C6 at a concrete input. -/
theorem isSingleBit_spec_w :
    ((isSingleBit 8 = true ↔ countBits 8 = 1) ∧ isSingleBit NONE = false) :=
  isSingleBit_spec 8 (by decide) (by decide)

/-! ### Claim C7: countBits is zero exactly on NONE, and 32 on ALL -/

/-- C7: for every BitField value `bits`, `countBits bits = 0` iff
`bits = NONE`; and `countBits ALL = 32`. -/
theorem countBits_spec (bits : Int) (h0 : 0 ≤ bits) (h1 : bits < 2 ^ 32) :
    (countBits bits = 0 ↔ bits = NONE) ∧ countBits ALL = 32 := by
  constructor
  · rw [countBits_eq_loop, countBitsLoop_eq_zero]
    unfold toUint32 NONE
    omega
  · rw [countBits_eq_loop, toUint32_ALL]
    have hones : ∀ k : Nat, countBitsLoop (2 ^ k - 1) 0 = k := by
      intro k
      induction k with
      | zero => simp [countBitsLoop_eq]
      | succ k ih =>
        have hp : 0 < 2 ^ k := Nat.two_pow_pos k
        have hs : 2 ^ (k + 1) = 2 * 2 ^ k := by rw [Nat.pow_succ]; omega
        rw [countBitsLoop_step (by omega), hs]
        rw [show (2 * 2 ^ k - 1) % 2 = 1 from by omega,
          show (2 * 2 ^ k - 1) / 2 = 2 ^ k - 1 from by omega, ih]
        omega
    exact hones 32

/-- Witness for C7 at a concrete input. -/
theorem countBits_spec_w : (countBits 5 = 0 ↔ (5 : Int) = NONE) ∧ countBits ALL = 32 :=
  countBits_spec 5 (by decide) (by decide)

/-! ### Claim C10: the countBits loop terminates within 32 iterations -/

theorem countBitsBounded_eq_loop :
    ∀ (k v c : Nat), v < 2 ^ k → countBitsBounded k v c = countBitsLoop v c := by
  intro k
  induction k with
  | zero =>
    intro v c hv
    have : v = 0 := by omega
    subst this
    rw [countBitsLoop_eq]
    rfl
  | succ k ih =>
    intro v c hv
    rw [countBitsLoop_eq]
    unfold countBitsBounded
    by_cases h0 : v = 0
    · simp [h0]
    · have hp : 0 < 2 ^ k := Nat.two_pow_pos k
      have hs : 2 ^ (k + 1) = 2 * 2 ^ k := by rw [Nat.pow_succ]; omega
      have hlt : v >>> 1 < 2 ^ k := by
        rw [shiftRight_one']
        omega
      simp only [h0, if_false]
      rw [ih (v >>> 1) _ hlt, shiftRight_one', Nat.and_one_is_mod]

theorem iterate_shiftRight_zero : ∀ (k v : Nat), v < 2 ^ k → (fun x => x >>> 1)^[k] v = 0 := by
  intro k
  induction k with
  | zero =>
    intro v hv
    have : v = 0 := by omega
    simp [this]
  | succ k ih =>
    intro v hv
    have hp : 0 < 2 ^ k := Nat.two_pow_pos k
    have hs : 2 ^ (k + 1) = 2 * 2 ^ k := by rw [Nat.pow_succ]; omega
    rw [Function.iterate_succ_apply]
    exact ih (v >>> 1) (by rw [shiftRight_one']; omega)

/-- C10: the `countBits` loop terminates on every 32-bit value: the unsigned
shift strictly decreases any non-zero value, the value reaches zero within
32 shifts, and running the loop with fuel 32 already computes its result. -/
theorem countBits_terminates (v c : Nat) (h : v < 2 ^ 32) :
    countBitsBounded 32 v c = countBitsLoop v c ∧
    (fun x => x >>> 1)^[32] v = 0 ∧
    ∀ x : Nat, x ≠ 0 → x >>> 1 < x := by
  refine ⟨countBitsBounded_eq_loop 32 v c h, iterate_shiftRight_zero 32 v h, ?_⟩
  intro x hx
  rw [shiftRight_one']
  exact Nat.div_lt_self (Nat.pos_of_ne_zero hx) (by omega)

/-- Witness for C10 at a concrete input. -/
theorem countBits_terminates_w : countBitsBounded 32 5 0 = countBitsLoop 5 0 :=
  (countBits_terminates 5 0 (by decide)).1

/-! ### Claim C2: toBinaryString -/

/-- C2 counterexample: at `bits = 5`, `length = 1` the claim predicts a
one-character result (the low-order bit); `padStart` never truncates, so
the code returns the full three-character representation. -/
theorem toBinaryString_claim_cex : ¬ (toBinaryString 5 1).length = 1 := by decide

/-- C2 (amended): `toBinaryString bits length` has exactly `max length d`
characters where `d` is the number of binary digits of `bits`; the full
binary representation is a suffix of the result (nothing is truncated),
every character of the added padding is the digit zero, and when
`d ≤ length` the result has exactly `length` characters, as claimed. -/
theorem toBinaryString_spec (bits length : Nat) :
    (toBinaryString bits length).length = max length (Nat.toDigits 2 bits).length ∧
    Nat.toDigits 2 bits <:+ (toBinaryString bits length).data ∧
    (∀ c ∈ (toBinaryString bits length).data.take
        (length - (Nat.toDigits 2 bits).length), c = '0') ∧
    ((Nat.toDigits 2 bits).length ≤ length → (toBinaryString bits length).length = length) := by
  have hdata : (toBinaryString bits length).data
      = List.replicate (length - (Nat.toDigits 2 bits).length) '0' ++ Nat.toDigits 2 bits := rfl
  have hlen : (toBinaryString bits length).length = (toBinaryString bits length).data.length := rfl
  have hL : (toBinaryString bits length).length = max length (Nat.toDigits 2 bits).length := by
    rw [hlen, hdata, List.length_append, List.length_replicate]
    omega
  refine ⟨hL, ?_, ?_, fun h => by rw [hL]; omega⟩
  · rw [hdata]
    exact List.suffix_append _ _
  · intro c hc
    rw [hdata, List.take_left' (List.length_replicate _ _)] at hc
    exact List.eq_of_mem_replicate hc

/-- Witness for C2 (amended) at a concrete input. -/
theorem toBinaryString_spec_w : (toBinaryString 5 8).length = 8 :=
  (toBinaryString_spec 5 8).2.2.2 (by decide)

/-! ### Object lookup lemmas -/

theorem objGet_foldl_acc {α : Type} (n : String) :
    ∀ (entries : List (String × α)) (acc : Option α),
      entries.foldl (fun acc e => if e.1 = n then some e.2 else acc) acc
        = (objGet entries n).or acc := by
  intro entries
  induction entries with
  | nil => intro acc; simp [objGet]
  | cons e t ih =>
    intro acc
    unfold objGet
    rw [List.foldl_cons, List.foldl_cons, ih, ih (if e.1 = n then some e.2 else none)]
    rcases ht : objGet t n with - | v
    · by_cases he : e.1 = n <;> simp [he]
    · simp

theorem objGet_cons {α : Type} (x : String × α) (l : List (String × α)) (n : String) :
    objGet (x :: l) n = (objGet l n).or (if x.1 = n then some x.2 else none) := by
  unfold objGet
  rw [List.foldl_cons, objGet_foldl_acc]
  rfl

theorem objGet_append {α : Type} (es fs : List (String × α)) (n : String) :
    objGet (es ++ fs) n = (objGet fs n).or (objGet es n) := by
  unfold objGet
  rw [List.foldl_append, objGet_foldl_acc]
  rfl

theorem objGet_map_num (definition : List (String × Int)) (n : String) :
    objGet (definition.map fun e => (e.1, JSProp.num e.2)) n
      = (objGet definition n).map JSProp.num := by
  induction definition with
  | nil => rfl
  | cons e t ih =>
    rw [List.map_cons, objGet_cons, objGet_cons, ih]
    rcases ht : objGet t n with - | v
    · by_cases he : e.1 = n <;> simp [he]
    · simp

/-! ### Claim C3: defineBitFlags and supplied positions -/

/-- C3 counterexample: a definition entry literally named "mask" is
overwritten by the accessor assignment `result.mask = ...`, so
`defineBitFlags({mask: 5})` does not map "mask" to 5: the stored property
is the accessor function, and the accessor call returns `bitMask` of the
function value, which is 1, not `bitMask 5 = 32`. -/
theorem defineBitFlags_claim_cex :
    objGet (defineBitFlags [("mask", 5)]) "mask" = some JSProp.accessor ∧
    ¬ objGet (defineBitFlags [("mask", 5)]) "mask" = some (JSProp.num 5) ∧
    maskCall (defineBitFlags [("mask", 5)]) "mask" = 1 ∧ bitMask 5 = 32 := by decide

/-- C3 (amended): for every name in the definition other than "mask", the
returned object stores exactly the supplied position (never renumbered or
normalized) and the accessor returns `bitMask` of that stored position;
the key "mask" itself always holds the accessor, which overwrites a
definition entry of that name. -/
theorem defineBitFlags_spec (definition : List (String × Int)) (n : String) (p : Int)
    (h : objGet definition n = some p) (hn : n ≠ "mask") :
    objGet (defineBitFlags definition) n = some (JSProp.num p) ∧
    maskCall (defineBitFlags definition) n = bitMask p ∧
    objGet (defineBitFlags definition) "mask" = some JSProp.accessor := by
  have hm : ¬ ("mask" = n) := fun he => hn he.symm
  have hfind : objGet (defineBitFlags definition) n = some (JSProp.num p) := by
    unfold defineBitFlags
    rw [objGet_append, objGet_map_num, h]
    simp [objGet, hm]
  refine ⟨hfind, ?_, ?_⟩
  · unfold maskCall
    rw [hfind, show maskShift (some (JSProp.num p)) = p from rfl]
  · unfold defineBitFlags
    rw [objGet_append]
    simp [objGet]

/-- Witness for C3 (amended) at a concrete input. -/
theorem defineBitFlags_spec_w :
    objGet (defineBitFlags [("READ", 0), ("ADMIN", 5)]) "ADMIN" = some (JSProp.num 5) ∧
    maskCall (defineBitFlags [("READ", 0), ("ADMIN", 5)]) "ADMIN" = bitMask 5 ∧
    objGet (defineBitFlags [("READ", 0), ("ADMIN", 5)]) "mask" = some JSProp.accessor :=
  defineBitFlags_spec [("READ", 0), ("ADMIN", 5)] "ADMIN" 5 (by decide) (by decide)

/-! ### Claim C8: defineBitEnum assigns sequence positions, last wins -/

theorem enumEntries_eq_from (names : List String) : enumEntries names = enumEntriesFrom 0 names :=
  rfl

theorem enumEntriesFrom_cons (s : Nat) (x : String) (t : List String) :
    enumEntriesFrom s (x :: t) = (x, JSProp.num (s : Int)) :: enumEntriesFrom (s + 1) t := rfl

theorem objGet_enumFrom_none {n : String} :
    ∀ (names : List String) (s : Nat), (∀ j, names.get? j ≠ some n) →
      objGet (enumEntriesFrom s names) n = none := by
  intro names
  induction names with
  | nil => intro s _; rfl
  | cons x t ih =>
    intro s h
    have hx : ¬ x = n := fun he => h 0 (by simp [he])
    rw [enumEntriesFrom_cons]
    unfold objGet
    rw [List.foldl_cons, objGet_foldl_acc]
    have ht : objGet (enumEntriesFrom (s + 1) t) n = none := ih (s + 1) fun j => h (j + 1)
    simp [ht, hx]

theorem objGet_enumFrom_last {n : String} :
    ∀ (names : List String) (k s : Nat), names.get? k = some n →
      (∀ j, k < j → names.get? j ≠ some n) →
      objGet (enumEntriesFrom s names) n = some (JSProp.num ((s + k : Nat) : Int)) := by
  intro names
  induction names with
  | nil => intro k s hget _; simp at hget
  | cons x t ih =>
    intro k s hget hlast
    rw [enumEntriesFrom_cons]
    unfold objGet
    rw [List.foldl_cons, objGet_foldl_acc]
    cases k with
    | zero =>
      have hx : x = n := by simpa using hget
      have ht : objGet (enumEntriesFrom (s + 1) t) n = none :=
        objGet_enumFrom_none t (s + 1) fun j => hlast (j + 1) (by omega)
      simp [ht, hx]
    | succ k =>
      have hget' : t.get? k = some n := by simpa using hget
      have hlast' : ∀ j, k < j → t.get? j ≠ some n := fun j hj =>
        hlast (j + 1) (by omega)
      have ht := ih k (s + 1) hget' hlast'
      rw [ht]
      simp
      omega

/-- C8 counterexample: `defineBitEnum("mask")` first writes the entry
"mask" with index 0, but the accessor assignment then overwrites it, so
the program does not map an argument literally named "mask" to its
sequence position. -/
theorem defineBitEnum_claim_cex :
    objGet (defineBitEnum ["mask"]) "mask" = some JSProp.accessor ∧
    ¬ objGet (defineBitEnum ["mask"]) "mask" = some (JSProp.num 0) := by decide

/-- C8 (amended): every argument name other than "mask" is stored with the
0-based index of its position, the last occurrence winning on repetition;
an argument literally named "mask" is instead overwritten by the accessor;
with zero names the collection's only member is the accessor under the key
"mask". -/
theorem defineBitEnum_spec (names : List String) (n : String) (k : Nat)
    (hget : names.get? k = some n) (hlast : ∀ j, k < j → names.get? j ≠ some n)
    (hn : n ≠ "mask") :
    objGet (defineBitEnum names) n = some (JSProp.num (k : Int)) ∧
    objGet (defineBitEnum []) n = none ∧
    objGet (defineBitEnum []) "mask" = some JSProp.accessor := by
  have hm : ¬ ("mask" = n) := fun he => hn he.symm
  refine ⟨?_, ?_, by decide⟩
  · unfold defineBitEnum
    rw [objGet_append, enumEntries_eq_from, objGet_enumFrom_last names k 0 hget hlast]
    simp [objGet, hm]
  · show objGet [("mask", JSProp.accessor)] n = none
    simp [objGet, hm]

/-- Witness for C8 (amended) at a concrete input: in `["A", "B", "A"]` the
last occurrence of "A" is at index 2. -/
theorem defineBitEnum_spec_w :
    objGet (defineBitEnum ["A", "B", "A"]) "A" = some (JSProp.num 2) ∧
    objGet (defineBitEnum []) "A" = none ∧
    objGet (defineBitEnum []) "mask" = some JSProp.accessor :=
  defineBitEnum_spec ["A", "B", "A"] "A" 2 (by decide)
    (by
      intro j hj h
      obtain ⟨m, rfl⟩ : ∃ m, j = m + 3 := ⟨j - 3, by omega⟩
      exact Option.noConfusion h)
    (by decide)

/-! ### Claim C9: mask on a missing name does not fail -/

/-- C9: for either builder, calling `mask` with a name that is not a key
of the collection does not fail: `result[name]` is `undefined`, its shift
count coerces to 0, and the call returns `bitMask 0`, which is 1. -/
theorem mask_missing_spec (definition : List (String × Int)) (names : List String) (n : String) :
    (objGet (defineBitFlags definition) n = none →
      maskCall (defineBitFlags definition) n = bitMask 0) ∧
    (objGet (defineBitEnum names) n = none →
      maskCall (defineBitEnum names) n = bitMask 0) ∧
    bitMask 0 = 1 := by
  refine ⟨?_, ?_, by decide⟩
  · intro h
    unfold maskCall
    rw [h, show maskShift none = 0 from rfl]
  · intro h
    unfold maskCall
    rw [h, show maskShift none = 0 from rfl]

/-- Witness for C9 at a concrete input: "X" is absent from both
collections. -/
theorem mask_missing_spec_w :
    maskCall (defineBitFlags [("A", 1)]) "X" = bitMask 0 ∧
    maskCall (defineBitEnum ["A"]) "X" = bitMask 0 :=
  ⟨(mask_missing_spec [("A", 1)] ["A"] "X").1 (by decide),
   (mask_missing_spec [("A", 1)] ["A"] "X").2.1 (by decide)⟩

end Moon7Bits
